import Mathlib

set_option autoImplicit false
set_option maxRecDepth 8192

namespace GitLLM

/-!
Shallow embedding of the GitLLM query-planning and result-enrichment pipeline:
the search route (frontend/src/app/api/search/route.ts), the pattern-analyzer
route (frontend/src/app/api/pattern-analyzer/route.ts) and the GitHub client
helper (githubFetch).  Network and LLM effects are modelled as explicit
oracles; JavaScript strings are modelled as lists of characters where string
algorithms matter, and as Lean strings elsewhere.
-/

/-! ### JavaScript string and truthiness helpers -/

abbrev Chars := List Char

/-- The character list of a string literal. -/
def str (s : String) : Chars := s.data

/-- JS truthiness of an optional string value: absent, null and empty strings are falsy. -/
def truthy : Option String → Bool
  | none => false
  | some s => s != ""

/-- Models the JS idiom v-or-else-d on an optional string (falsy values fall through to d). -/
def strOr (v : Option String) (d : String) : String :=
  if truthy v then v.getD "" else d

/-- Whitespace characters recognised by String.prototype.trim (ASCII subset). -/
def isWsChar (c : Char) : Bool :=
  c = ' ' || c = '\t' || c = '\n' || c = '\r' || c = '\x0B' || c = '\x0C'

/-- Remove one leading newline if present: the greedy optional newline of the fence regexes. -/
def dropNl : Chars → Chars
  | [] => []
  | c :: t => if c = '\n' then t else c :: t

/-- Remove leading whitespace: the greedy whitespace tail of the fence-with-ws regex. -/
def dropWs (l : Chars) : Chars := l.dropWhile isWsChar

/-- JS String.prototype.split with a single-character separator. -/
def splitOnChar (sep : Char) : Chars → List Chars
  | [] => [[]]
  | c :: cs =>
    if c = sep then [] :: splitOnChar sep cs
    else
      match splitOnChar sep cs with
      | [] => [[c]]
      | h :: t => (c :: h) :: t

/-- content.split on a newline, as in the snippet computation of the enrichment code. -/
def splitNl (l : Chars) : List Chars := splitOnChar '\n' l

/-- JS Array.prototype.join with a newline separator. -/
def joinNl : List Chars → Chars
  | [] => []
  | [x] => x
  | x :: xs => x ++ '\n' :: joinNl xs

/-- Strip trailing whitespace. -/
def trimRight (l : Chars) : Chars := (l.reverse.dropWhile isWsChar).reverse

/-- JS String.prototype.trim: strip whitespace from both ends. -/
def jsTrim (l : Chars) : Chars := (trimRight l).dropWhile isWsChar

/-- Numeric value of a list of decimal digit characters. -/
def digitsVal (l : Chars) : Nat :=
  l.foldl (fun a c => a * 10 + (c.toNat - 48)) 0

/-- Models JS parseInt on the decimal header strings the GitHub API sends: the value of the
leading run of digits, or none (NaN) when the string does not start with a digit. -/
def jsParseInt (s : String) : Option Nat :=
  let ds := (str s).takeWhile Char.isDigit
  if ds.isEmpty then none else some (digitsVal ds)

/-- JS s.substring 0 n. -/
def jsSubstring (s : String) (n : Nat) : String := String.mk ((str s).take n)

/-! ### Plan sanitizer (search route, response cleaning before JSON.parse)

The route runs two global regex replacements and a trim:
text.replace all occurrences of three backticks followed by the letters json and an
optional newline, then all occurrences of three backticks and an optional newline,
by the empty string, then trims.  A global JS replace finds non-overlapping matches
left to right in the original string, which the recursions below mirror. -/

/-- The fenced-json opener token. -/
def fenceJson : Chars := str "```json"

/-- The bare fence token. -/
def fence3 : Chars := str "```"

/-- The backtick character, taken from the head of the fence token. -/
def btick : Char := fence3.headD ' '

/-- First replacement of the plan sanitizer: removes every occurrence of the fenced-json
opener with its greedy optional newline, scanning left to right. -/
def stripJsonFences : Chars → Chars
  | [] => []
  | c :: cs =>
    if fenceJson.isPrefixOf (c :: cs) then
      stripJsonFences (dropNl ((c :: cs).drop 7))
    else
      c :: stripJsonFences cs
termination_by l => l.length
decreasing_by
  all_goals simp only [List.length_cons]
  all_goals first
    | omega
    | (have hle : ∀ l : Chars, (dropNl l).length ≤ l.length := by
         intro l
         cases l with
         | nil => simp [dropNl]
         | cons d u => by_cases hd : d = '\n' <;> simp [dropNl, hd]
       refine Nat.lt_of_le_of_lt (hle _) ?_
       simp only [List.length_drop, List.length_cons]
       omega)

/-- Second replacement of the plan sanitizer: removes every occurrence of the bare fence
with its greedy optional newline, scanning left to right. -/
def stripFences : Chars → Chars
  | [] => []
  | c :: cs =>
    if fence3.isPrefixOf (c :: cs) then
      stripFences (dropNl ((c :: cs).drop 3))
    else
      c :: stripFences cs
termination_by l => l.length
decreasing_by
  all_goals simp only [List.length_cons]
  all_goals first
    | omega
    | (have hle : ∀ l : Chars, (dropNl l).length ≤ l.length := by
         intro l
         cases l with
         | nil => simp [dropNl]
         | cons d u => by_cases hd : d = '\n' <;> simp [dropNl, hd]
       refine Nat.lt_of_le_of_lt (hle _) ?_
       simp only [List.length_drop, List.length_cons]
       omega)

/-- The cleanedText computation of the search route: strip fenced-json openers, strip bare
fences, trim. -/
def sanitizePlanText (t : Chars) : Chars := jsTrim (stripFences (stripJsonFences t))

/-- Wrap a planning response in leading and trailing code-fence markers, the formatting an
LLM typically adds around a JSON payload. -/
def wrapFence (t : Chars) : Chars := fenceJson ++ '\n' :: (t ++ '\n' :: fence3)

/-! ### Response sanitizer of the pattern analyzer (analyzeCodePatterns)

That route replaces every occurrence of the fenced-json opener followed by greedy
whitespace, then a trailing bare fence followed by whitespace up to the end of the
string, then trims. -/

/-- First replacement of the analyzer sanitizer: removes every occurrence of the
fenced-json opener with greedy trailing whitespace. -/
def stripJsonFencesWs : Chars → Chars
  | [] => []
  | c :: cs =>
    if fenceJson.isPrefixOf (c :: cs) then
      stripJsonFencesWs (dropWs ((c :: cs).drop 7))
    else
      c :: stripJsonFencesWs cs
termination_by l => l.length
decreasing_by
  all_goals simp only [List.length_cons]
  all_goals first
    | omega
    | (have hle : ∀ l : Chars, (dropWs l).length ≤ l.length := by
         intro l
         induction l with
         | nil => simp [dropWs]
         | cons d u ih =>
           simp only [dropWs, List.dropWhile] at ih ⊢
           by_cases hd : isWsChar d
           all_goals simp [hd]
           all_goals omega
       refine Nat.lt_of_le_of_lt (hle _) ?_
       simp only [List.length_drop, List.length_cons]
       omega)

/-- Second replacement of the analyzer sanitizer: an end-anchored match, removing the
earliest bare fence that is followed only by whitespace up to the end of the string. -/
def stripEndFenceWs : Chars → Chars
  | [] => []
  | c :: cs =>
    if fence3.isPrefixOf (c :: cs) && ((c :: cs).drop 3).all isWsChar then
      []
    else
      c :: stripEndFenceWs cs

/-- The sanitize-then-trim step of analyzeCodePatterns. -/
def sanitizeAnalysisText (t : Chars) : Chars := jsTrim (stripEndFenceWs (stripJsonFencesWs t))

/-! ### githubFetch (GitHub client helper): rate-limit versus generic upstream errors -/

/-- fetch sets response.ok exactly when the status is in the 2xx range. -/
def respOk (status : Nat) : Bool := 200 ≤ status && status < 300

/-- The observable part of an upstream HTTP response consumed by githubFetch.
jsonMessage models awaiting response.json and reading its message field:
none when the body fails to parse as JSON (the catch substitutes an Unknown-error
object), some none when it parses but has no truthy message, some (some m) otherwise. -/
structure HttpResponse where
  status : Nat
  rateRemaining : Option String
  rateReset : Option String
  statusText : String
  jsonMessage : Option (Option String)
  data : String
deriving DecidableEq

/-- The two distinct throw sites of githubFetch, with the data their messages embed:
the rate-limit error carries the parsed reset time, the generic error the numeric
status and upstream message. -/
inductive GithubError where
  | rateLimited (resetEpochMs : Option Nat)
  | apiError (status : Nat) (message : String)
deriving DecidableEq

/-- errorData.message or-else response.statusText, after the json fallback object. -/
def messageOf (r : HttpResponse) : String :=
  match r.jsonMessage with
  | none => "Unknown error"
  | some m => if truthy m then m.getD "" else r.statusText

/-- resetTime parsed to a millisecond epoch: the header string fed to parseInt and scaled
by 1000; none when the header is missing, empty, or not numeric. -/
def resetOf (r : HttpResponse) : Option Nat :=
  match r.rateReset with
  | none => none
  | some s => if s != "" then (jsParseInt s).map (· * 1000) else none

/-- githubFetch of the GitHub client: on a non-2xx response, a 403 with a zero
remaining-quota header raises the rate-limit error with the parsed reset time, any other
failure raises the generic API error; a 204 yields an empty body, otherwise the JSON body. -/
def githubFetch (r : HttpResponse) : Except GithubError (Option String) :=
  if !respOk r.status then
    if r.status == 403 && r.rateRemaining == some "0" then
      .error (.rateLimited (resetOf r))
    else
      .error (.apiError r.status (messageOf r))
  else if r.status == 204 then
    .ok none
  else
    .ok (some r.data)

/-! ### Search route, request validation and planning call (the phase before dispatch) -/

/-- Outcome of one call to the text-generation model. -/
inductive LlmOutcome where
  | exn (msg : String)
  | text (t : Chars)
deriving DecidableEq

/-- Outbound calls the route can make during the planning phase. -/
inductive ApiCall where
  | llmGenerate (prompt : Chars)
deriving DecidableEq

/-- The instruction prompt built by the search route.  The full literal instruction text is
abbreviated here; the properties proved depend only on the fact that the prompt embeds the
query. -/
def searchPrompt (q : String) : Chars :=
  str "**Objective:** Transform a natural language query into an optimized GitHub Search API query string. **Users Natural language query:** " ++ str q

/-- Result of the planning phase: the 400 validation rejection, the 500 failure when the
model call throws, or the raw response text handed to the sanitizer. -/
inductive PlanPhaseOut where
  | invalidQuery
  | serverFailure (msg : String)
  | llmText (t : Chars)
deriving DecidableEq

/-- Lines 63 to 141 of the search route: reject a missing, non-string (modelled none),
empty or whitespace-only query with the 400 validation error before any outbound call;
otherwise invoke the model once and return its raw text.  The second component is the
trace of outbound calls made. -/
def planPhase (llm : Chars → LlmOutcome) (query : Option String) :
    PlanPhaseOut × List ApiCall :=
  match query with
  | none => (.invalidQuery, [])
  | some q =>
    if jsTrim (str q) = [] then
      (.invalidQuery, [])
    else
      match llm (searchPrompt q) with
      | .exn m => (.serverFailure m, [.llmGenerate (searchPrompt q)])
      | .text t => (.llmText t, [.llmGenerate (searchPrompt q)])

/-! ### Content enricher (search route, code-search branch) -/

/-- The repository object nested in a GitHub code-search item (fields the route reads). -/
structure RepoRaw where
  name : String
  fullName : String
  description : Option String
  htmlUrl : String
  ownerLogin : String
  stars : Option Int
  forks : Option Int
  language : Option String
deriving DecidableEq

/-- The repository summary the route puts on every result. -/
structure RepoSummary where
  name : String
  fullName : String
  description : Option String
  htmlUrl : String
  owner : String
  stars : Int
  forks : Int
  language : Option String
deriving DecidableEq

/-- The repository mapping repeated in every branch of the enrichment code. -/
def mkRepoSummary (r : RepoRaw) : RepoSummary :=
  { name := r.name, fullName := r.fullName, description := r.description,
    htmlUrl := r.htmlUrl, owner := r.ownerLogin,
    stars := r.stars.getD 0, forks := r.forks.getD 0, language := r.language }

/-- A GitHub code-search item as the route reads it. -/
structure CodeItem where
  sha : Option String
  url : String
  path : String
  name : String
  htmlUrl : String
  score : Option Int
  repository : RepoRaw
deriving DecidableEq

/-- item.sha or-else item.url. -/
def jsId (item : CodeItem) : String :=
  if truthy item.sha then item.sha.getD "" else item.url

/-- The specification fetchStatus taxonomy; each enrichment result below is tagged with
the construction branch that produced it. -/
inductive FetchStatus where
  | ok
  | contentUnavailable
  | limitReached
  | error
deriving DecidableEq

/-- The codeSnippet object on a result. -/
structure Snippet where
  code : Chars
  language : String
  lineStart : Nat
  lineEnd : Nat
deriving DecidableEq

/-- One enriched search result as built by the route, tagged with its fetchStatus. -/
structure EnrichedResult where
  id : String
  repository : RepoSummary
  path : String
  name : String
  url : String
  htmlUrl : String
  codeSnippet : Snippet
  matchScore : Int
  fullContent : Chars
  fetchStatus : FetchStatus
deriving DecidableEq

/-- Outcome of the per-item content fetch: a non-ok response, a thrown fetch error, or a
decoded JSON body carrying the optional content field and declared encoding. -/
inductive ContentFetchResult where
  | httpError (status : Nat)
  | exn (msg : String)
  | okBody (content : Option String) (encoding : String)
deriving DecidableEq

/-- The external effects of the enrichment batch: the per-url content fetch and the
base64 decoder (none models a thrown decode error). -/
structure EnrichOracle where
  fetch : String → ContentFetchResult
  decode : String → Option String

/-- The fullContent computation of the successful-response branch: decode declared
base64 payloads (a throwing decode yields the decoding sentinel), pass through other
truthy content, and fall back to the unavailable sentinel. -/
def okBranchContent (o : EnrichOracle) (content : Option String) (encoding : String) : Chars :=
  if truthy content && encoding == "base64" then
    match o.decode (content.getD "") with
    | some d => str d
    | none => str "// Error decoding content"
  else if truthy content then
    str (content.getD "")
  else
    str "// Content unavailable"

/-- The fetchStatus tag of the successful-response branch: a failed decode of declared
base64 content is an error, truthy content is ok, anything else is unavailable. -/
def okBranchStatus (o : EnrichOracle) (content : Option String) (encoding : String) :
    FetchStatus :=
  if truthy content && encoding == "base64" && (o.decode (content.getD "")).isNone then
    .error
  else if truthy content then .ok
  else .contentUnavailable

/-- The per-item fetch task of the code-search branch (the async map over the head
slice): each failure branch returns a placeholder result instead of throwing. -/
def enrichHead (o : EnrichOracle) (item : CodeItem) : EnrichedResult :=
  match o.fetch item.url with
  | .httpError _ =>
    { id := jsId item, repository := mkRepoSummary item.repository,
      path := item.path, name := item.name, url := item.url, htmlUrl := item.htmlUrl,
      codeSnippet :=
        { code := str "// Code snippet could not be fetched.",
          language := strOr item.repository.language "plaintext",
          lineStart := 1, lineEnd := 1 },
      matchScore := item.score.getD 0,
      fullContent := str "// Full content could not be fetched.",
      fetchStatus := .error }
  | .exn msg =>
    { id := jsId item, repository := mkRepoSummary item.repository,
      path := item.path, name := item.name, url := item.url, htmlUrl := item.htmlUrl,
      codeSnippet :=
        { code := str "// Error fetching snippet: " ++ str msg,
          language := "plaintext", lineStart := 1, lineEnd := 1 },
      matchScore := item.score.getD 0,
      fullContent := str "// Error fetching content: " ++ str msg,
      fetchStatus := .error }
  | .okBody content encoding =>
    let fullContent := okBranchContent o content encoding
    let snippetLines := joinNl ((splitNl fullContent).take 10)
    { id := jsId item, repository := mkRepoSummary item.repository,
      path := item.path, name := item.name, url := item.url, htmlUrl := item.htmlUrl,
      codeSnippet :=
        { code := if snippetLines.isEmpty then str "// Snippet unavailable" else snippetLines,
          language := strOr item.repository.language "plaintext",
          lineStart := 1, lineEnd := (splitNl snippetLines).length },
      matchScore := item.score.getD 0,
      fullContent := if fullContent.isEmpty then str "// Content unavailable" else fullContent,
      fetchStatus := okBranchStatus o content encoding }

/-- The synchronous mapping of the items beyond the fetch bound (the remainingItems map):
placeholder content, no network call. -/
def enrichTail (item : CodeItem) : EnrichedResult :=
  { id := jsId item, repository := mkRepoSummary item.repository,
    path := item.path, name := item.name, url := item.url, htmlUrl := item.htmlUrl,
    codeSnippet :=
      { code := str "// Snippet not fetched (limit reached)",
        language := strOr item.repository.language "plaintext",
        lineStart := 1, lineEnd := 1 },
    matchScore := item.score.getD 0,
    fullContent := str "// Content not fetched (limit reached)",
    fetchStatus := .limitReached }

/-- The fetch bound of the route. -/
def MAX_CONTENT_FETCHES : Nat := 10

/-- The finalResults computation of the code-search branch: the first n items are
enriched through the fetch oracle, the rest mapped synchronously, and the two slices are
concatenated in original order.  The second component is the list of urls actually
fetched (the outbound network calls issued by the batch). -/
def enrichContent (o : EnrichOracle) (items : List CodeItem) (n : Nat) :
    List EnrichedResult × List String :=
  ((items.take n).map (enrichHead o) ++ (items.drop n).map enrichTail,
   (items.take n).map (·.url))

/-- The head fetch task fails for this item: non-ok response, thrown fetch, or a declared
base64 payload whose decode throws. -/
def headFails (o : EnrichOracle) (item : CodeItem) : Bool :=
  match o.fetch item.url with
  | .httpError _ => true
  | .exn _ => true
  | .okBody c e => truthy c && e == "base64" && (o.decode (c.getD "")).isNone

/-- The head fetch task cleanly succeeds for this item: ok response with truthy content
that either is not declared base64 or decodes. -/
def headOk (o : EnrichOracle) (item : CodeItem) : Bool :=
  match o.fetch item.url with
  | .httpError _ => false
  | .exn _ => false
  | .okBody c e => truthy c && (e != "base64" || (o.decode (c.getD "")).isSome)

/-- The sentinel full-content strings a failed head task records: the non-ok response
placeholder, the thrown-fetch message prefix, or the decode-error sentinel. -/
def isFailureSentinel (l : Chars) : Bool :=
  l == str "// Full content could not be fetched." ||
  (str "// Error fetching content: ").isPrefixOf l ||
  l == str "// Error decoding content"

/-! ### Pattern-analyzer route: search query construction -/

/-- The filters object read by the pattern-analyzer route. -/
structure PatternFilters where
  userFilter : Option String := none
  repoFilter : Option String := none
deriving DecidableEq

/-- The character class of the repo-filter regex. -/
def isRepoChar (c : Char) : Bool :=
  c.isAlpha || c.isDigit || c = '_' || c = '.' || c = '-'

/-- The owner-slash-repo format test: one slash separating two nonempty runs of the
allowed characters, anchored at both ends. -/
def repoPattern (s : String) : Bool :=
  match splitOnChar '/' (str s) with
  | [l, r] => !l.isEmpty && !r.isEmpty && l.all isRepoChar && r.all isRepoChar
  | _ => false

/-- Lines 41 to 64 of the pattern-analyzer route: the query embeds the first 200
characters of the snippet, then appends the language, user and repo qualifiers, the last
only when the filter value passes the format test. -/
def buildPatternQuery (codePattern : String) (language : Option String)
    (filters : Option PatternFilters) : String :=
  let q := jsSubstring codePattern 200
  let q := if truthy language then q ++ " language:" ++ language.getD "" else q
  match filters with
  | none => q
  | some f =>
    let q := if truthy f.userFilter then q ++ " user:" ++ f.userFilter.getD "" else q
    if truthy f.repoFilter then
      if repoPattern (f.repoFilter.getD "") then q ++ " repo:" ++ f.repoFilter.getD ""
      else q
    else q

/-! ### Pattern comparator and analyzeCodePatterns -/

/-- The object JSON.parse produces from the analyzer response, cast unvalidated to the
result interface: every declared field may be absent.  JSON numbers are modelled as
integers. -/
structure AnalysisObj where
  insights : Option String
  technicalAnalysis : Option String
  bestPractices : Option String
  improvementAreas : Option String
  overallScore : Option Int
deriving DecidableEq

/-- The placeholder analysis returned by the catch of analyzeCodePatterns. -/
def defaultAnalysis : AnalysisObj :=
  { insights := some "Failed to analyze code patterns",
    technicalAnalysis := some "Analysis could not be completed due to a technical error. Unable to compare implementations at this time.",
    bestPractices := some "Analysis was not successful, please try again.",
    improvementAreas := some "Could not identify improvement areas due to analysis failure.",
    overallScore := some 0 }

/-- Outcome of the comparison-prompt generation call. -/
inductive GenOutcome where
  | exn
  | text (t : Chars)
deriving DecidableEq

/-- analyzeCodePatterns: the generation call and the sanitize-and-parse of its response
run inside a try whose catch returns the placeholder analysis; a parsed object is
returned as is, without validation of any field.  JSON.parse is an external library
routine, passed as an oracle applied to the sanitized text. -/
def analyzeCodePatterns (gen : GenOutcome)
    (parseJson : Chars → Except Unit AnalysisObj) : AnalysisObj :=
  match gen with
  | .exn => defaultAnalysis
  | .text t =>
    match parseJson (sanitizeAnalysisText t) with
    | .ok a => a
    | .error _ => defaultAnalysis

/-- Repository metadata fetched per candidate (fields the route reads). -/
structure RepoData where
  name : String
  fullName : String
  description : Option String
  htmlUrl : String
  stars : Option Int
  forks : Option Int
  language : Option String
deriving DecidableEq

/-- The repository summary placed on a comparison result. -/
structure RepoSummaryPat where
  name : String
  fullName : String
  description : Option String
  url : String
  stars : Option Int
  forks : Option Int
  language : Option String
deriving DecidableEq

/-- The repository mapping of the comparator task. -/
def mkRepoSummaryPat (r : RepoData) : RepoSummaryPat :=
  { name := r.name, fullName := r.fullName, description := r.description,
    url := r.htmlUrl, stars := r.stars, forks := r.forks, language := r.language }

/-- A GitHub code-search item as the pattern-analyzer route reads it. -/
structure PatternItem where
  url : String
  name : String
  path : String
  score : Int
  repoUrl : String
deriving DecidableEq

/-- Outcome of the per-candidate content fetch: a thrown fetch or JSON decode (exn), a
non-ok response, or a body with its optional content field. -/
inductive ContentFetchOutcome where
  | exn
  | httpError
  | okContent (content : Option String)
deriving DecidableEq

/-- Outcome of the per-candidate repository-metadata fetch: a thrown fetch or JSON decode
(exn), or the decoded metadata (the route performs no ok check here). -/
inductive RepoFetchOutcome where
  | exn
  | okRepo (r : RepoData)
deriving DecidableEq

/-- The external effects of one comparator batch. -/
structure PatternOracle where
  contentFetch : String → ContentFetchOutcome
  decode : String → Option String
  repoFetch : String → RepoFetchOutcome
  gen : Chars → GenOutcome
  parseJson : Chars → Except Unit AnalysisObj

/-- One comparison result as returned to the caller. -/
structure ComparisonResult where
  score : Int
  name : String
  path : String
  repository : RepoSummaryPat
  codeContent : String
  analysis : AnalysisObj
deriving DecidableEq

/-- The per-candidate task of the comparator batch: any throw or non-ok content response
resolves to none (the catch returns null); a missing content field decodes to the empty
string; a throw in the repository fetch resolves to none; the analysis call never throws
and its failures surface as the placeholder analysis on a non-null result. -/
def comparatorTask (o : PatternOracle) (item : PatternItem) : Option ComparisonResult :=
  match o.contentFetch item.url with
  | .exn => none
  | .httpError => none
  | .okContent c =>
    match (if truthy c then o.decode (c.getD "") else some "") with
    | none => none
    | some content =>
      match o.repoFetch item.repoUrl with
      | .exn => none
      | .okRepo rd =>
        some { score := item.score, name := item.name, path := item.path,
               repository := mkRepoSummaryPat rd, codeContent := content,
               analysis := analyzeCodePatterns (o.gen (str content)) o.parseJson }

/-- The result bound of the pattern-analyzer route. -/
def MAX_RESULTS : Nat := 10

/-- The batch of the pattern-analyzer route: the first MAX_RESULTS items are mapped
through their tasks, and null results are filtered out of the settled batch. -/
def comparePatterns (o : PatternOracle) (items : List PatternItem) : List ComparisonResult :=
  ((items.take MAX_RESULTS).map (comparatorTask o)).reduceOption

/-! ### The parsed search plan (shape of the object the sanitized planning response
parses into) -/

/-- The searchPlan object of the planning response. -/
structure SearchPlan where
  searchTarget : String
  githubQueryString : String
  queryAssessment : String
  constructionRationale : String
  inferredIntent : String
deriving DecidableEq

/-! ### Concrete instances used to evaluate the embedding on explicit inputs -/

/-- Placeholder code-search item (list-indexing default, never read in bounds). -/
def blankItem : CodeItem :=
  { sha := none, url := "", path := "", name := "", htmlUrl := "", score := none,
    repository :=
      { name := "", fullName := "", description := none, htmlUrl := "",
        ownerLogin := "", stars := none, forks := none, language := none } }

/-- Placeholder enriched result (list-indexing default, never read in bounds). -/
def blankResult : EnrichedResult :=
  { id := "", repository :=
      { name := "", fullName := "", description := none, htmlUrl := "", owner := "",
        stars := 0, forks := 0, language := none },
    path := "", name := "", url := "", htmlUrl := "",
    codeSnippet := { code := [], language := "", lineStart := 0, lineEnd := 0 },
    matchScore := 0, fullContent := [], fetchStatus := .ok }

/-- A 403 response with an exhausted quota and a numeric reset header. -/
def resp403 : HttpResponse :=
  { status := 403, rateRemaining := some "0", rateReset := some "1710000000",
    statusText := "Forbidden", jsonMessage := some (some "API rate limit exceeded"),
    data := "" }

/-- Three code-search items for the bound-overflow batch. -/
def itemA : CodeItem := { blankItem with sha := some "shaA", url := "urlA", path := "a.ts" }

def itemB : CodeItem := { blankItem with sha := some "shaB", url := "urlB", path := "b.ts" }

def itemC : CodeItem := { blankItem with sha := some "shaC", url := "urlC", path := "c.ts" }

def items3 : List CodeItem := [itemA, itemB, itemC]

/-- An oracle that returns plain truthy content for every url. -/
def oW : EnrichOracle :=
  { fetch := fun _ => .okBody (some "line one") "none", decode := fun s => some s }

/-- Two items, the first of which fails with a non-ok content response. -/
def items2 : List CodeItem := [itemA, itemB]

/-- An oracle failing on itemA and succeeding on every other url. -/
def oF : EnrichOracle :=
  { fetch := fun u => if u = "urlA" then .httpError 500 else .okBody (some "hello") "none",
    decode := fun s => some s }

/-- A twelve-line file body. -/
def twelveLines : String := "l1\nl2\nl3\nl4\nl5\nl6\nl7\nl8\nl9\nl10\nl11\nl12"

/-- An oracle whose fetch yields declared base64 content decoding to twelve lines. -/
def o12 : EnrichOracle :=
  { fetch := fun _ => .okBody (some "payload") "base64", decode := fun _ => some twelveLines }

/-- The item fetched through o12. -/
def item9 : CodeItem := { blankItem with sha := some "sha9", url := "url9", path := "nine.ts" }

/-- A repository metadata record for the comparator instances. -/
def sampleRepoData : RepoData :=
  { name := "react", fullName := "facebook/react", description := some "ui library",
    htmlUrl := "https://example.test/facebook/react", stars := some 1000, forks := some 50,
    language := some "JavaScript" }

/-- A code-search item for the comparator instances. -/
def sampleItem : PatternItem :=
  { url := "cu", name := "hook.ts", path := "src/hook.ts", score := 2, repoUrl := "ru" }

/-- A comparator oracle where every fetch succeeds but the generation call throws. -/
def llmFailOracle : PatternOracle :=
  { contentFetch := fun _ => .okContent (some "code body"),
    decode := fun s => some s,
    repoFetch := fun _ => .okRepo sampleRepoData,
    gen := fun _ => .exn,
    parseJson := fun _ => .error () }

/-- A comparator oracle whose content fetch throws for every url. -/
def contentThrowOracle : PatternOracle :=
  { contentFetch := fun _ => .exn,
    decode := fun s => some s,
    repoFetch := fun _ => .okRepo sampleRepoData,
    gen := fun _ => .exn,
    parseJson := fun _ => .error () }

/-- A parsed analysis object with every text field present but no overallScore member. -/
def noScoreObj : AnalysisObj :=
  { insights := some "a", technicalAnalysis := some "b", bestPractices := some "c",
    improvementAreas := some "d", overallScore := none }

/-- JSON.parse succeeding on the analyzer response with an object that has no
overallScore member. -/
def noScoreParseFn : Chars → Except Unit AnalysisObj := fun _ => .ok noScoreObj

/-- A 201-character snippet ending in X. -/
def snippetX : String := String.mk (List.replicate 200 'a' ++ [ 'X' ])

/-- A 201-character snippet ending in Y. -/
def snippetY : String := String.mk (List.replicate 200 'a' ++ [ 'Y' ])

/-! ## Theorems -/

/-- C3: when the code-hosting service responds with HTTP 403 together with a
zero remaining-quota header, githubFetch raises the rate-limit error carrying the parsed
reset time, while any other non-success response raises the generic API error with its
status and message; the two errors are distinguishable. -/
theorem c3_rate_limited_distinct (r : HttpResponse) (hok : respOk r.status = false) :
    (r.status = 403 → r.rateRemaining = some "0" →
      githubFetch r = .error (.rateLimited (resetOf r))) ∧
    (¬(r.status = 403 ∧ r.rateRemaining = some "0") →
      githubFetch r = .error (.apiError r.status (messageOf r))) ∧
    (∀ t s m, GithubError.rateLimited t ≠ GithubError.apiError s m) := by
  refine ⟨?_, ?_, ?_⟩
  · intro h403 hrem
    have hok2 : respOk 403 = false := by decide
    simp [githubFetch, h403, hrem, hok2]
  · intro hno
    by_cases h1 : r.status = 403
    · have h2 : r.rateRemaining ≠ some "0" := fun h => hno ⟨h1, h⟩
      have hok2 : respOk 403 = false := by decide
      simp [githubFetch, h1, h2, hok2]
    · simp [githubFetch, hok, h1]
  · intro t s m h
    exact GithubError.noConfusion h

/-- Witness for C3: a concrete 403 response with exhausted quota yields the rate-limit
error with the reset header parsed to a millisecond epoch. -/
theorem c3_witness :
    respOk resp403.status = false ∧
    githubFetch resp403 = .error (.rateLimited (some 1710000000000)) := by
  refine ⟨by decide, ?_⟩
  have h := (c3_rate_limited_distinct resp403 (by decide)).1 rfl rfl
  have hr : resetOf resp403 = some 1710000000000 := by decide
  rw [h, hr]

/-- C8: a missing or whitespace-only query is rejected with the validation error before
the planning service is invoked: the response is the 400 rejection and the outbound-call
trace is empty, for every model oracle. -/
theorem c8_blank_query_rejected (llm : Chars → LlmOutcome) (q : Option String)
    (hblank : q = none ∨ ∃ s, q = some s ∧ jsTrim (str s) = []) :
    planPhase llm q = (.invalidQuery, []) := by
  rcases hblank with h | ⟨s, hq, hs⟩
  · subst h; rfl
  · subst hq
    simp [planPhase, hs]

/-- Witness for C8: the all-spaces query is rejected with no outbound call, for an
arbitrary concrete model oracle. -/
theorem c8_witness :
    planPhase (fun _ => .text []) (some "   ") = (.invalidQuery, []) :=
  c8_blank_query_rejected _ _ (Or.inr ⟨"   ", rfl, by decide⟩)

/-- C10: the constructed pattern search query embeds only the first 200 characters of
the snippet: snippets agreeing on that prefix yield identical queries for the same
language and filters. -/
theorem c10_query_truncation (p1 p2 : String) (lang : Option String)
    (f : Option PatternFilters) (h : jsSubstring p1 200 = jsSubstring p2 200) :
    buildPatternQuery p1 lang f = buildPatternQuery p2 lang f := by
  unfold buildPatternQuery
  rw [h]

/-- Witness for C10: two distinct 201-character snippets agreeing on their first 200
characters produce the same query. -/
theorem c10_witness :
    snippetX ≠ snippetY ∧
    buildPatternQuery snippetX (some "ts") none = buildPatternQuery snippetY (some "ts") none := by
  constructor
  · decide
  · apply c10_query_truncation
    show String.mk ((str snippetX).take 200) = String.mk ((str snippetY).take 200)
    have e1 : (str snippetX).take 200 = List.replicate 200 'a' := by
      show (List.replicate 200 'a' ++ [ 'X' ]).take 200 = List.replicate 200 'a'
      conv_lhs => rw [show 200 = (List.replicate 200 'a').length by simp]
      exact List.take_left _ _
    have e2 : (str snippetY).take 200 = List.replicate 200 'a' := by
      show (List.replicate 200 'a' ++ [ 'Y' ]).take 200 = List.replicate 200 'a'
      conv_lhs => rw [show 200 = (List.replicate 200 'a').length by simp]
      exact List.take_left _ _
    rw [e1, e2]

/-- C7: an ill-formed repoFilter is omitted from the constructed query entirely (the
query equals the one built with no repo filter), while a well-formed one is appended as
a repo qualifier. -/
theorem c7_repo_filter_validated (cp : String) (lang : Option String)
    (f : PatternFilters) (rf : String) :
    (repoPattern rf = false →
      buildPatternQuery cp lang (some { f with repoFilter := some rf }) =
        buildPatternQuery cp lang (some { f with repoFilter := none })) ∧
    (repoPattern rf = true →
      buildPatternQuery cp lang (some { f with repoFilter := some rf }) =
        buildPatternQuery cp lang (some { f with repoFilter := none }) ++ " repo:" ++ rf) := by
  constructor
  · intro hbad
    simp [buildPatternQuery, hbad, truthy]
  · intro hgood
    have hne : rf ≠ "" := by
      intro h
      subst h
      exact absurd hgood (by decide)
    have hbne : (rf != "") = true := by simp [hne]
    simp [buildPatternQuery, hgood, truthy, hbne]

/-- Witness for C7: a malformed repo filter is dropped from the query and a well-formed
one is appended. -/
theorem c7_witness :
    buildPatternQuery "useState" none
        (some { userFilter := none, repoFilter := some "not a repo" }) =
      buildPatternQuery "useState" none (some { userFilter := none, repoFilter := none }) ∧
    buildPatternQuery "useState" none
        (some { userFilter := none, repoFilter := some "facebook/react" }) =
      buildPatternQuery "useState" none (some { userFilter := none, repoFilter := none }) ++
        " repo:" ++ "facebook/react" := by
  constructor
  · exact (c7_repo_filter_validated "useState" none
      { userFilter := none, repoFilter := none } "not a repo").1 (by decide)
  · exact (c7_repo_filter_validated "useState" none
      { userFilter := none, repoFilter := none } "facebook/react").2 (by decide)

/-- C4: evaluation of analyzeCodePatterns at the failing input.  When the planning
service returns a response that parses as JSON but has no overallScore member, the
parsed object is returned unvalidated with its score absent (undefined), not the
documented default 0; the default is produced only when generation throws or the
response fails to parse. -/
theorem c4_missing_score_not_defaulted :
    analyzeCodePatterns (.text (str "irrelevant")) noScoreParseFn = noScoreObj ∧
    noScoreObj.overallScore = none ∧
    analyzeCodePatterns .exn noScoreParseFn = defaultAnalysis ∧
    defaultAnalysis.overallScore = some 0 := by
  exact ⟨rfl, rfl, rfl, rfl⟩

/-- C2 counterexample: a candidate whose content fetch, decode and repository fetch all
succeed but whose LLM analysis fails does not resolve to null: the task yields a result
carrying the placeholder analysis. -/
theorem c2_counterexample_llm_failure_not_null :
    llmFailOracle.gen (str "code body") = .exn ∧
    comparatorTask llmFailOracle sampleItem ≠ none ∧
    (comparatorTask llmFailOracle sampleItem).map (·.analysis) = some defaultAnalysis := by
  refine ⟨rfl, ?_, rfl⟩
  intro h
  simp [comparatorTask, llmFailOracle, sampleItem, truthy] at h

/-- Mapping the surviving values back to some yields a sublist of the raw per-item task
outcomes: survivors keep their original relative order. -/
theorem filterMap_map_some_sublist {α β : Type} (f : α → Option β) :
    ∀ l : List α, ((l.filterMap f).map some).Sublist (l.map f) := by
  intro l
  induction l with
  | nil => simp
  | cons a t ih =>
    cases h : f a with
    | none =>
      rw [List.map_cons, List.filterMap_cons_none h, h]
      exact ih.cons none
    | some b =>
      rw [List.map_cons, List.filterMap_cons_some h, h, List.map_cons]
      exact ih.cons₂ (some b)

/-- C2 amended: the comparator batch runs the first MAX_RESULTS hits through their
tasks and drops the null outcomes, so the output has length at most MAX_RESULTS, is the
in-order filtering of the per-item task outcomes (original relative order preserved, no
exception escapes the batch since every task is total), every returned result is some
surviving task outcome; a thrown or non-ok content fetch, a throwing decode of truthy
content, or a throwing repository-metadata fetch resolves that task to null, while an
LLM-analysis failure does not null the task (see the counterexample): it surfaces as the
placeholder analysis on a returned result. -/
theorem c2_batch_isolation (o : PatternOracle) (items : List PatternItem) :
    (comparePatterns o items).length ≤ MAX_RESULTS ∧
    comparePatterns o items = (items.take MAX_RESULTS).filterMap (comparatorTask o) ∧
    ((comparePatterns o items).map some).Sublist
      ((items.take MAX_RESULTS).map (comparatorTask o)) ∧
    (∀ res ∈ comparePatterns o items,
      ∃ item ∈ items.take MAX_RESULTS, comparatorTask o item = some res) ∧
    (∀ item, o.contentFetch item.url = .exn → comparatorTask o item = none) ∧
    (∀ item, o.contentFetch item.url = .httpError → comparatorTask o item = none) ∧
    (∀ item c, o.contentFetch item.url = .okContent c → truthy c = true →
      o.decode (c.getD "") = none → comparatorTask o item = none) ∧
    (∀ item c content, o.contentFetch item.url = .okContent c →
      (if truthy c then o.decode (c.getD "") else some "") = some content →
      o.repoFetch item.repoUrl = .exn → comparatorTask o item = none) := by
  have heq : comparePatterns o items = (items.take MAX_RESULTS).filterMap (comparatorTask o) := by
    unfold comparePatterns
    rw [show (((items.take MAX_RESULTS).map (comparatorTask o)).reduceOption =
      ((items.take MAX_RESULTS).map (comparatorTask o)).filterMap id) from rfl]
    rw [List.filterMap_map]
    rfl
  refine ⟨?_, heq, ?_, ?_, ?_, ?_, ?_, ?_⟩
  · calc (comparePatterns o items).length
        ≤ ((items.take MAX_RESULTS).map (comparatorTask o)).length :=
          List.reduceOption_length_le _
      _ ≤ MAX_RESULTS := by
          rw [List.length_map]
          exact List.length_take_le _ _
  · rw [heq]
    exact filterMap_map_some_sublist _ _
  · intro res hres
    rw [heq] at hres
    obtain ⟨item, hmem, hsome⟩ := List.mem_filterMap.mp hres
    exact ⟨item, hmem, hsome⟩
  · intro item h
    simp [comparatorTask, h]
  · intro item h
    simp [comparatorTask, h]
  · intro item c h ht hd
    simp [comparatorTask, h, ht, hd]
  · intro item c content h hdec hrepo
    simp [comparatorTask, h, hdec, hrepo]

/-- Witness for C2: on a concrete batch whose only content fetch throws, the task
resolves to null and the whole batch is the empty list. -/
theorem c2_witness :
    comparatorTask contentThrowOracle sampleItem = none ∧
    comparePatterns contentThrowOracle [sampleItem] = [] := by
  have h := c2_batch_isolation contentThrowOracle [sampleItem]
  have h1 : comparatorTask contentThrowOracle sampleItem = none :=
    h.2.2.2.2.1 sampleItem rfl
  refine ⟨h1, ?_⟩
  rw [h.2.1]
  simp only [MAX_RESULTS, List.take_succ_cons, List.take_nil]
  rw [List.filterMap_cons_none h1]
  rfl

/-- A token is a prefix of itself followed by anything. -/
theorem isPrefixOf_append_self (p l : Chars) : p.isPrefixOf (p ++ l) = true := by
  rw [List.isPrefixOf_iff_prefix]
  exact List.prefix_append p l

/-- A head task never carries the limit-reached tag: that tag is reserved for the items
beyond the fetch bound. -/
theorem enrichHead_status_ne_limit (o : EnrichOracle) (item : CodeItem) :
    (enrichHead o item).fetchStatus ≠ .limitReached := by
  unfold enrichHead
  cases h : o.fetch item.url with
  | httpError s => simp
  | exn m => simp
  | okBody c e =>
    simp only [okBranchStatus]
    split
    · simp
    · split <;> simp

/-- A failing head task is tagged error. -/
theorem headFails_error (o : EnrichOracle) (item : CodeItem)
    (h : headFails o item = true) : (enrichHead o item).fetchStatus = .error := by
  unfold headFails at h
  unfold enrichHead
  cases hf : o.fetch item.url with
  | httpError s => simp
  | exn m => simp
  | okBody c e =>
    rw [hf] at h
    obtain ⟨⟨h1, h2⟩, h3⟩ :
        (truthy c = true ∧ e = "base64") ∧ o.decode (c.getD "") = none := by
      simpa using h
    subst h2
    simp [okBranchStatus, h1, h3]

/-- A failing head task records one of the three failure sentinels as its full content. -/
theorem headFails_sentinel (o : EnrichOracle) (item : CodeItem)
    (h : headFails o item = true) :
    isFailureSentinel (enrichHead o item).fullContent = true := by
  unfold headFails at h
  unfold enrichHead
  cases hf : o.fetch item.url with
  | httpError s =>
    simp [isFailureSentinel]
  | exn m =>
    simp only [isFailureSentinel]
    have hp : (str "// Error fetching content: ").isPrefixOf
        (str "// Error fetching content: " ++ str m) = true :=
      isPrefixOf_append_self _ _
    simp [hp]
  | okBody c e =>
    rw [hf] at h
    obtain ⟨⟨h1, h2⟩, h3⟩ :
        (truthy c = true ∧ e = "base64") ∧ o.decode (c.getD "") = none := by
      simpa using h
    subst h2
    have hcontent : okBranchContent o c "base64" = str "// Error decoding content" := by
      simp [okBranchContent, h1, h3]
    simp [hcontent, isFailureSentinel, str]

/-- A cleanly succeeding head task is tagged ok. -/
theorem headOk_ok (o : EnrichOracle) (item : CodeItem)
    (h : headOk o item = true) : (enrichHead o item).fetchStatus = .ok := by
  unfold headOk at h
  unfold enrichHead
  cases hf : o.fetch item.url with
  | httpError s => rw [hf] at h; simp at h
  | exn m => rw [hf] at h; simp at h
  | okBody c e =>
    rw [hf] at h
    obtain ⟨h1, h2⟩ : truthy c = true ∧ (¬e = "base64" ∨ (o.decode (c.getD "")).isSome = true) := by
      simpa using h
    by_cases hb : e = "base64"
    · subst hb
      rcases h2 with h3 | h3
      · exact absurd rfl h3
      · cases hd : o.decode (c.getD "") with
        | none => rw [hd] at h3; simp at h3
        | some v => simp [okBranchStatus, h1, hd]
    · have hbe : (e == "base64") = false := by simp [hb]
      simp [okBranchStatus, h1, hbe]

/-- getD on the left part of an append. -/
theorem getD_append_left {α : Type} (d : α) :
    ∀ (l1 l2 : List α) (i : Nat), i < l1.length → (l1 ++ l2).getD i d = l1.getD i d := by
  intro l1
  induction l1 with
  | nil => intro l2 i h; simp at h
  | cons a t ih =>
    intro l2 i h
    cases i with
    | zero => rfl
    | succ j =>
      simp only [List.cons_append, List.getD_cons_succ]
      exact ih l2 j (by simpa using h)

/-- getD through a map, at an in-bounds index. -/
theorem getD_map_of_lt {α β : Type} (f : α → β) (d : β) (dA : α) :
    ∀ (l : List α) (i : Nat), i < l.length → (l.map f).getD i d = f (l.getD i dA) := by
  intro l
  induction l with
  | nil => intro i h; simp at h
  | cons a t ih =>
    intro i h
    cases i with
    | zero => rfl
    | succ j =>
      simp only [List.map_cons, List.getD_cons_succ]
      exact ih j (by simpa using h)

/-- getD through a take, at an index inside the taken prefix. -/
theorem getD_take_of_lt {α : Type} (d : α) :
    ∀ (l : List α) (n i : Nat), i < n → i < l.length → (l.take n).getD i d = l.getD i d := by
  intro l
  induction l with
  | nil => intro n i h1 h2; simp at h2
  | cons a t ih =>
    intro n i h1 h2
    cases n with
    | zero => omega
    | succ m =>
      cases i with
      | zero => rfl
      | succ j =>
        simp only [List.take_succ_cons, List.getD_cons_succ]
        exact ih m j (by omega) (by simpa using h2)

/-- Dropping the length of the left part of an append yields the right part. -/
theorem drop_append_of_length_eq {α : Type} (l1 l2 : List α) (n : Nat)
    (h : l1.length = n) : (l1 ++ l2).drop n = l2 := by
  subst h
  exact List.drop_left l1 l2

/-- Inside the fetch bound, the batch result at index i is the head task of item i. -/
theorem enrich_getD_head (o : EnrichOracle) (items : List CodeItem) (n i : Nat)
    (hi : i < items.length) (hin : i < n) :
    ((enrichContent o items n).1).getD i blankResult =
      enrichHead o (items.getD i blankItem) := by
  unfold enrichContent
  have hA : i < ((items.take n).map (enrichHead o)).length := by
    simp only [List.length_map, List.length_take]
    omega
  rw [getD_append_left _ _ _ _ hA]
  rw [getD_map_of_lt (enrichHead o) blankResult blankItem _ i
    (by simpa only [List.length_map] using hA)]
  rw [getD_take_of_lt _ _ _ _ hin hi]

/-- No head-task result is kept by the limit-reached filter. -/
theorem filter_limit_head (o : EnrichOracle) :
    ∀ l : List CodeItem,
      (l.map (enrichHead o)).filter (fun r => r.fetchStatus == FetchStatus.limitReached) = [] := by
  intro l
  induction l with
  | nil => rfl
  | cons a t ih =>
    have hne : ((enrichHead o a).fetchStatus == FetchStatus.limitReached) = false := by
      simp only [beq_eq_false_iff_ne, ne_eq]
      exact enrichHead_status_ne_limit o a
    simp only [List.map_cons, List.filter_cons, hne]
    simpa using ih

/-- Every tail-mapped result is kept by the limit-reached filter. -/
theorem filter_limit_tail :
    ∀ l : List CodeItem,
      (l.map enrichTail).filter (fun r => r.fetchStatus == FetchStatus.limitReached) =
        l.map enrichTail := by
  intro l
  induction l with
  | nil => rfl
  | cons a t ih =>
    simp only [List.map_cons, List.filter_cons]
    have : ((enrichTail a).fetchStatus == FetchStatus.limitReached) = true := by
      simp [enrichTail]
    simp only [this, if_pos]
    rw [ih]

/-- C1: for every batch of k content hits and bound n, the enricher returns exactly k
results, the head tasks of the first min k n items followed by the tail placeholders of
the rest in original order; when k is within the bound no result is tagged limit-reached,
and when k exceeds the bound exactly k - n results are tagged limit-reached, namely the
last k - n items in original order with placeholder content; only the first min k n urls
are fetched. -/
theorem c1_enricher_bound (o : EnrichOracle) (items : List CodeItem) (n : Nat) :
    ((enrichContent o items n).1.length = items.length) ∧
    ((enrichContent o items n).1 =
      (items.take n).map (enrichHead o) ++ (items.drop n).map enrichTail) ∧
    (items.length ≤ n →
      ∀ r ∈ (enrichContent o items n).1, r.fetchStatus ≠ .limitReached) ∧
    (n < items.length →
      (((enrichContent o items n).1.filter
          (fun r => r.fetchStatus == FetchStatus.limitReached)).length = items.length - n) ∧
      ((enrichContent o items n).1.drop n = (items.drop n).map enrichTail) ∧
      (∀ r ∈ (enrichContent o items n).1.drop n,
        r.fetchStatus = .limitReached ∧
        r.codeSnippet.code = str "// Snippet not fetched (limit reached)" ∧
        r.fullContent = str "// Content not fetched (limit reached)")) ∧
    ((enrichContent o items n).2 = (items.take n).map (·.url)) := by
  refine ⟨?_, rfl, ?_, ?_, rfl⟩
  · simp only [enrichContent, List.length_append, List.length_map, List.length_take,
      List.length_drop]
    omega
  · intro hle r hr
    unfold enrichContent at hr
    rw [List.drop_eq_nil_of_le hle] at hr
    simp only [List.map_nil, List.append_nil, List.mem_map] at hr
    obtain ⟨x, _, rfl⟩ := hr
    exact enrichHead_status_ne_limit o x
  · intro hgt
    have hAlen : ((items.take n).map (enrichHead o)).length = n := by
      simp only [List.length_map, List.length_take]
      omega
    refine ⟨?_, ?_, ?_⟩
    · show (((items.take n).map (enrichHead o) ++ (items.drop n).map enrichTail).filter
        (fun r => r.fetchStatus == FetchStatus.limitReached)).length = items.length - n
      rw [List.filter_append, filter_limit_head, filter_limit_tail]
      simp
    · show ((items.take n).map (enrichHead o) ++ (items.drop n).map enrichTail).drop n =
        (items.drop n).map enrichTail
      exact drop_append_of_length_eq _ _ _ hAlen
    · intro r hr
      have hdrop : (enrichContent o items n).1.drop n = (items.drop n).map enrichTail :=
        drop_append_of_length_eq _ _ _ hAlen
      rw [hdrop] at hr
      obtain ⟨x, _, rfl⟩ := List.mem_map.mp hr
      exact ⟨rfl, rfl, rfl⟩

/-- Witness for C1: a three-item batch with bound 2 has exactly one limit-reached
result, and only the first two urls are fetched. -/
theorem c1_witness :
    2 < items3.length ∧
    ((enrichContent oW items3 2).1.filter
      (fun r => r.fetchStatus == FetchStatus.limitReached)).length = items3.length - 2 ∧
    (enrichContent oW items3 2).2 = (items3.take 2).map (·.url) := by
  refine ⟨by decide, ?_, ?_⟩
  · exact ((c1_enricher_bound oW items3 2).2.2.2.1 (by decide)).1
  · exact (c1_enricher_bound oW items3 2).2.2.2.2

/-- C5: a fetch or decode failure on one item inside the fetch bound never shrinks the
batch and never escapes as an exception (every task is a total function returning a
result): the failing item is tagged error and records a failure sentinel as its content,
while every other in-bound item whose fetch succeeded cleanly stays tagged ok. -/
theorem c5_single_failure_isolated (o : EnrichOracle) (items : List CodeItem) (n j : Nat)
    (hj : j < items.length) (hjn : j < n)
    (hfail : headFails o (items.getD j blankItem) = true)
    (hok : ∀ i : Fin items.length, i.val < n → i.val ≠ j →
      headOk o (items.getD i.val blankItem) = true) :
    ((enrichContent o items n).1.length = items.length) ∧
    (((enrichContent o items n).1.getD j blankResult).fetchStatus = .error) ∧
    (isFailureSentinel ((enrichContent o items n).1.getD j blankResult).fullContent = true) ∧
    (∀ i : Fin items.length, i.val < n → i.val ≠ j →
      ((enrichContent o items n).1.getD i.val blankResult).fetchStatus = .ok) := by
  refine ⟨?_, ?_, ?_, ?_⟩
  · simp only [enrichContent, List.length_append, List.length_map, List.length_take,
      List.length_drop]
    omega
  · rw [enrich_getD_head o items n j hj hjn]
    exact headFails_error o _ hfail
  · rw [enrich_getD_head o items n j hj hjn]
    exact headFails_sentinel o _ hfail
  · intro i hin hne
    rw [enrich_getD_head o items n i.val i.isLt hin]
    exact headOk_ok o _ (hok i hin hne)

/-- Witness for C5: in a concrete two-item batch whose first fetch returns a non-ok
response, the first result is tagged error with a sentinel content and the second stays
ok. -/
theorem c5_witness :
    (((enrichContent oF items2 10).1.getD 0 blankResult).fetchStatus = .error) ∧
    (isFailureSentinel ((enrichContent oF items2 10).1.getD 0 blankResult).fullContent
      = true) ∧
    (∀ i : Fin items2.length, i.val < 10 → i.val ≠ 0 →
      ((enrichContent oF items2 10).1.getD i.val blankResult).fetchStatus = .ok) := by
  have h := c5_single_failure_isolated oF items2 10 0 (by decide) (by decide)
    (by decide) (by decide)
  exact ⟨h.2.1, h.2.2.1, h.2.2.2⟩

/-- Splitting never yields an empty piece list. -/
theorem splitOnChar_ne_nil (sep : Char) (l : Chars) : splitOnChar sep l ≠ [] := by
  cases l with
  | nil => simp [splitOnChar]
  | cons c cs =>
    simp only [splitOnChar]
    by_cases h : c = sep
    · simp [h]
    · simp only [if_neg h]
      cases hs : splitOnChar sep cs <;> simp

/-- Joining the newline split recovers the original character list. -/
theorem joinNl_splitNl (l : Chars) : joinNl (splitNl l) = l := by
  induction l with
  | nil => rfl
  | cons c cs ih =>
    simp only [splitNl, splitOnChar] at ih ⊢
    by_cases h : c = '\n'
    · subst h
      simp only [if_pos rfl]
      cases hs : splitOnChar '\n' cs with
      | nil => exact absurd hs (splitOnChar_ne_nil _ _)
      | cons h2 t2 =>
        rw [hs] at ih
        show joinNl ([] :: h2 :: t2) = '\n' :: cs
        rw [show joinNl ([] :: h2 :: t2) = [] ++ '\n' :: joinNl (h2 :: t2) from rfl]
        rw [ih]
        rfl
    · simp only [if_neg h]
      cases hs : splitOnChar '\n' cs with
      | nil => exact absurd hs (splitOnChar_ne_nil _ _)
      | cons h2 t2 =>
        rw [hs] at ih
        cases t2 with
        | nil =>
          show joinNl [c :: h2] = c :: cs
          rw [show joinNl [c :: h2] = c :: h2 from rfl]
          rw [show joinNl [h2] = h2 from rfl] at ih
          rw [ih]
        | cons h3 t3 =>
          show joinNl ((c :: h2) :: h3 :: t3) = c :: cs
          rw [show joinNl ((c :: h2) :: h3 :: t3) = (c :: h2) ++ '\n' :: joinNl (h3 :: t3)
            from rfl]
          rw [show joinNl (h2 :: h3 :: t3) = h2 ++ '\n' :: joinNl (h3 :: t3) from rfl] at ih
          rw [List.cons_append, ih]

/-- No piece of the split contains the separator. -/
theorem mem_splitOnChar_not_sep (sep : Char) :
    ∀ (l : Chars) (x : Chars), x ∈ splitOnChar sep l → sep ∉ x := by
  intro l
  induction l with
  | nil =>
    intro x hx
    simp only [splitOnChar, List.mem_singleton] at hx
    subst hx
    simp
  | cons c cs ih =>
    intro x hx
    simp only [splitOnChar] at hx
    by_cases h : c = sep
    · rw [if_pos h] at hx
      rcases List.mem_cons.mp hx with h1 | h1
      · subst h1; simp
      · exact ih x h1
    · rw [if_neg h] at hx
      cases hs : splitOnChar sep cs with
      | nil => exact absurd hs (splitOnChar_ne_nil _ _)
      | cons h2 t2 =>
        rw [hs] at hx
        rcases List.mem_cons.mp hx with h1 | h1
        · subst h1
          intro hmem
          rcases List.mem_cons.mp hmem with h2m | h2m
          · exact h h2m.symm
          · exact ih h2 (by rw [hs]; exact List.mem_cons_self _ _) h2m
        · exact ih x (by rw [hs]; exact List.mem_cons_of_mem _ h1)

/-- A separator-free list splits to itself. -/
theorem splitOnChar_of_not_mem (sep : Char) :
    ∀ (x : Chars), sep ∉ x → splitOnChar sep x = [x] := by
  intro x
  induction x with
  | nil => intro _; rfl
  | cons c t ih =>
    intro hx
    have hc : ¬c = sep := fun h => hx (by rw [h]; exact List.mem_cons_self _ _)
    simp only [splitOnChar, if_neg hc]
    rw [ih (fun h => hx (List.mem_cons_of_mem _ h))]

/-- Splitting at the first separator after a separator-free prefix. -/
theorem splitOnChar_append_sep (sep : Char) :
    ∀ (x r : Chars), sep ∉ x →
      splitOnChar sep (x ++ sep :: r) = x :: splitOnChar sep r := by
  intro x
  induction x with
  | nil =>
    intro r _
    simp [splitOnChar]
  | cons c t ih =>
    intro r hx
    have hc : ¬c = sep := fun h => hx (by rw [h]; exact List.mem_cons_self _ _)
    simp only [List.cons_append, splitOnChar, if_neg hc]
    rw [show t.append (sep :: r) = t ++ sep :: r from rfl]
    rw [ih r (fun h => hx (List.mem_cons_of_mem _ h))]

/-- Splitting a join of newline-free pieces recovers the pieces. -/
theorem splitNl_joinNl :
    ∀ (xs : List Chars), xs ≠ [] → (∀ x ∈ xs, '\n' ∉ x) →
      splitNl (joinNl xs) = xs := by
  intro xs
  induction xs with
  | nil => intro h; exact absurd rfl h
  | cons x t ih =>
    intro _ hmem
    cases t with
    | nil =>
      show splitNl (joinNl [x]) = [x]
      rw [show joinNl [x] = x from rfl]
      exact splitOnChar_of_not_mem '\n' x (hmem x (List.mem_cons_self _ _))
    | cons y t2 =>
      show splitNl (joinNl (x :: y :: t2)) = x :: y :: t2
      rw [show joinNl (x :: y :: t2) = x ++ '\n' :: joinNl (y :: t2) from rfl]
      unfold splitNl
      rw [splitOnChar_append_sep '\n' x _ (hmem x (List.mem_cons_self _ _))]
      have := ih (by simp) (fun z hz => hmem z (List.mem_cons_of_mem _ hz))
      unfold splitNl at this
      rw [this]

/-- The join is empty exactly for no piece or a single empty piece. -/
theorem joinNl_eq_nil_iff (xs : List Chars) :
    joinNl xs = [] ↔ xs = [] ∨ xs = [[]] := by
  cases xs with
  | nil => simp [joinNl]
  | cons x t =>
    cases t with
    | nil =>
      rw [show joinNl [x] = x from rfl]
      constructor
      · intro h; subst h; simp
      · intro h
        rcases h with h | h
        · exact absurd h (by simp)
        · simpa using h
    | cons y t2 =>
      rw [show joinNl (x :: y :: t2) = x ++ '\n' :: joinNl (y :: t2) from rfl]
      constructor
      · intro h
        exact absurd h (by simp)
      · intro h
        rcases h with h | h <;> simp at h

/-- The ten-line preview of nonempty content is nonempty. -/
theorem joinNl_take10_ne_nil (l : Chars) (hl : l ≠ []) :
    joinNl ((splitNl l).take 10) ≠ [] := by
  intro h
  rcases (joinNl_eq_nil_iff _).mp h with h1 | h1
  · rcases List.take_eq_nil_iff.mp h1 with h2 | h2
    · exact absurd h2 (by norm_num)
    · exact splitOnChar_ne_nil _ _ h2
  · have hsplit : splitNl l = [[]] := by
      cases hs : splitNl l with
      | nil => exact absurd hs (splitOnChar_ne_nil _ _)
      | cons a t =>
        rw [hs, List.take_succ_cons] at h1
        have ha : a = [] ∧ (t.take 9) = [] := by
          constructor
          · exact (List.cons_eq_cons.mp h1).1
          · exact (List.cons_eq_cons.mp h1).2
        obtain ⟨ha1, ha2⟩ := ha
        rcases List.take_eq_nil_iff.mp ha2 with h3 | h3
        · exact absurd h3 (by norm_num)
        · rw [ha1, h3]
    have : l = [] := by
      have hj := joinNl_splitNl l
      rw [hsplit] at hj
      exact hj.symm
    exact hl this

/-- Strings are empty exactly when their character lists are. -/
theorem str_eq_nil_iff (s : String) : str s = [] ↔ s = "" := by
  rw [String.ext_iff]
  rfl

/-- C9 counterexample: for a successfully fetched and decoded twelve-line file the
result records lineEnd 10 (the preview line count), not the file total line count 12:
no field of the result equals the total line count alongside the preview. -/
theorem c9_counterexample_total_lines :
    (enrichHead o12 item9).fullContent = str twelveLines ∧
    (splitNl (str twelveLines)).length = 12 ∧
    (enrichHead o12 item9).codeSnippet.lineEnd = 10 ∧
    (enrichHead o12 item9).codeSnippet.lineEnd ≠
      (splitNl (enrichHead o12 item9).fullContent).length := by
  decide

/-- C9 amended: for a successfully fetched and decoded nonempty content item in the
head, the snippet is the first ten lines of the decoded content (joined back with
newlines), lineStart is 1 and lineEnd is the preview line count, which equals the
minimum of the file total line count and 10; the full decoded content is kept in
fullContent. -/
theorem c9_preview_first_ten (o : EnrichOracle) (item : CodeItem) (c : Option String)
    (d : String) (hf : o.fetch item.url = .okBody c "base64") (hc : truthy c = true)
    (hd : o.decode (c.getD "") = some d) (hne : d ≠ "") :
    (enrichHead o item).fullContent = str d ∧
    (enrichHead o item).codeSnippet.code = joinNl ((splitNl (str d)).take 10) ∧
    (enrichHead o item).codeSnippet.lineStart = 1 ∧
    (enrichHead o item).codeSnippet.lineEnd = min (splitNl (str d)).length 10 := by
  have hne2 : str d ≠ [] := fun h => hne ((str_eq_nil_iff d).mp h)
  have hcontent : okBranchContent o c "base64" = str d := by
    simp [okBranchContent, hc, hd]
  have hsnip : joinNl ((splitNl (str d)).take 10) ≠ [] := joinNl_take10_ne_nil _ hne2
  have hsplit : splitNl (joinNl ((splitNl (str d)).take 10)) = (splitNl (str d)).take 10 := by
    apply splitNl_joinNl
    · cases hs : splitNl (str d) with
      | nil => exact absurd hs (splitOnChar_ne_nil _ _)
      | cons a t => simp [List.take_succ_cons]
    · intro x hx
      exact mem_splitOnChar_not_sep '\n' (str d) x (List.take_subset _ _ hx)
  unfold enrichHead
  rw [hf]
  simp only [hcontent]
  refine ⟨?_, ?_, ?_, ?_⟩ <;>
    first
      | trivial
      | rw [if_neg (by simpa using hne2)]
      | rw [if_neg (by simpa using hsnip)]
      | (show (splitNl (joinNl ((splitNl (str d)).take 10))).length = _
         rw [hsplit, List.length_take, Nat.min_comm])

/-- Witness for C9 amended: the twelve-line file yields the ten-line preview with
lineEnd 10. -/
theorem c9_witness :
    (enrichHead o12 item9).fullContent = str twelveLines ∧
    (enrichHead o12 item9).codeSnippet.code = joinNl ((splitNl (str twelveLines)).take 10) ∧
    (enrichHead o12 item9).codeSnippet.lineStart = 1 ∧
    (enrichHead o12 item9).codeSnippet.lineEnd = min (splitNl (str twelveLines)).length 10 :=
  c9_preview_first_ten o12 item9 (some "payload") twelveLines rfl (by decide) rfl
    (by decide)

/-- The fenced-json opener has seven characters. -/
theorem fenceJson_length : fenceJson.length = 7 := by decide

/-- The bare fence has three characters. -/
theorem fence3_length : fence3.length = 3 := by decide

/-- A prefix of a list is a prefix of any extension of it. -/
theorem isPrefixOf_append_of_isPrefixOf (p a b : Chars) (h : p.isPrefixOf a = true) :
    p.isPrefixOf (a ++ b) = true := by
  rw [List.isPrefixOf_iff_prefix] at h ⊢
  exact h.trans (List.prefix_append a b)

/-- A prefix no longer than the first part of an append is a prefix of that part. -/
theorem isPrefixOf_of_append_of_le (p a b : Chars) (h : p.isPrefixOf (a ++ b) = true)
    (hlen : p.length ≤ a.length) : p.isPrefixOf a = true := by
  rw [List.isPrefixOf_iff_prefix] at h ⊢
  exact List.prefix_of_prefix_length_le h (List.prefix_append a b) hlen

/-- A token match that starts inside the first part of an append and reaches past it
contains the boundary character. -/
theorem mem_of_isPrefixOf_append (p a : Chars) (x : Char) (b : Chars)
    (hlen : a.length < p.length) (hp : p.isPrefixOf (a ++ x :: b) = true) : x ∈ p := by
  rw [List.isPrefixOf_iff_prefix] at hp
  obtain ⟨r, hr⟩ := hp
  have ht : (a ++ x :: b).take (a.length + 1) = a ++ [x] := by
    rw [List.take_append_eq_append_take]
    rw [List.take_of_length_le (by omega)]
    simp
  have ht2 : (p ++ r).take (a.length + 1) = p.take (a.length + 1) := by
    rw [List.take_append_eq_append_take]
    have hz : a.length + 1 - p.length = 0 := by omega
    rw [hz]
    simp
  rw [hr, ht] at ht2
  have hx : x ∈ p.take (a.length + 1) := by
    rw [← ht2]
    simp
  exact List.take_subset _ _ hx

/-- Lists shorter than the fenced-json opener are left unchanged by the first
replacement. -/
theorem stripJsonFences_short : ∀ l : Chars, l.length < 7 → stripJsonFences l = l := by
  intro l
  induction l with
  | nil => intro _; simp only [stripJsonFences]
  | cons c cs ih =>
    intro h
    have hp : ¬fenceJson.isPrefixOf (c :: cs) = true := by
      intro hb
      have hle := (List.isPrefixOf_iff_prefix.mp hb).length_le
      rw [fenceJson_length] at hle
      simp only [List.length_cons] at h hle
      omega
    simp only [stripJsonFences]
    rw [if_neg hp]
    rw [ih (by simp only [List.length_cons] at h; omega)]

/-- Lists shorter than the bare fence are left unchanged by the second replacement. -/
theorem stripFences_short : ∀ l : Chars, l.length < 3 → stripFences l = l := by
  intro l
  induction l with
  | nil => intro _; simp only [stripFences]
  | cons c cs ih =>
    intro h
    have hp : ¬fence3.isPrefixOf (c :: cs) = true := by
      intro hb
      have hle := (List.isPrefixOf_iff_prefix.mp hb).length_le
      rw [fence3_length] at hle
      simp only [List.length_cons] at h hle
      omega
    simp only [stripFences]
    rw [if_neg hp]
    rw [ih (by simp only [List.length_cons] at h; omega)]

/-- The first replacement removes a leading fenced-json opener with its newline. -/
theorem stripJsonFences_fence_head (t : Chars) :
    stripJsonFences (fenceJson ++ '\n' :: t) = stripJsonFences t := by
  have hpre : fenceJson.isPrefixOf (fenceJson ++ ('\n' :: t)) = true :=
    isPrefixOf_append_self _ _
  have hpre2 : fenceJson.isPrefixOf
      (btick :: (btick :: btick :: 'j' :: 's' :: 'o' :: 'n' :: '\n' :: t)) = true := hpre
  conv_lhs => rw [show fenceJson ++ '\n' :: t =
    btick :: (btick :: btick :: 'j' :: 's' :: 'o' :: 'n' :: '\n' :: t) from rfl]
  simp only [stripJsonFences]
  rw [if_pos hpre2]
  show stripJsonFences (dropNl ('\n' :: t)) = stripJsonFences t
  simp [dropNl]

/-- The second replacement erases a bare fence standing alone. -/
theorem stripFences_fence3 : stripFences fence3 = [] := by
  have hpre : fence3.isPrefixOf (btick :: (btick :: [ btick ])) = true := by decide
  conv_lhs => rw [show fence3 = btick :: (btick :: [ btick ]) from rfl]
  simp only [stripFences]
  rw [if_pos hpre]
  show stripFences (dropNl []) = []
  show stripFences [] = []
  simp only [stripFences]

/-- The first replacement passes the trailing newline-fence suffix through, at most
consuming its newline into the greedy tail of a match that ends flush with the text. -/
theorem stripJsonFences_suffix_aux :
    ∀ (k : Nat) (t : Chars), t.length ≤ k →
      stripJsonFences (t ++ '\n' :: fence3) = stripJsonFences t ++ '\n' :: fence3 ∨
      stripJsonFences (t ++ '\n' :: fence3) = stripJsonFences t ++ fence3 := by
  intro k
  induction k with
  | zero =>
    intro t ht
    have hnil : t = [] := List.length_eq_zero.mp (Nat.le_zero.mp ht)
    subst hnil
    left
    have h1 : stripJsonFences ([] : Chars) = [] := by simp only [stripJsonFences]
    rw [h1]
    exact stripJsonFences_short _ (by decide)
  | succ k ih =>
    intro t ht
    cases t with
    | nil =>
      left
      have h1 : stripJsonFences ([] : Chars) = [] := by simp only [stripJsonFences]
      rw [h1]
      exact stripJsonFences_short _ (by decide)
    | cons c cs =>
      by_cases hp : fenceJson.isPrefixOf (c :: cs) = true
      · have hp2 : fenceJson.isPrefixOf (c :: (cs ++ '\n' :: fence3)) = true := by
          rw [← List.cons_append]
          exact isPrefixOf_append_of_isPrefixOf _ _ _ hp
        have h7 : 7 ≤ (c :: cs).length := by
          have hle := (List.isPrefixOf_iff_prefix.mp hp).length_le
          rw [fenceJson_length] at hle
          exact hle
        rw [List.cons_append]
        simp only [stripJsonFences]
        rw [if_pos hp2, if_pos hp]
        have hdrop : (c :: (cs ++ '\n' :: fence3)).drop 7 =
            (c :: cs).drop 7 ++ '\n' :: fence3 := by
          rw [← List.cons_append, List.drop_append_eq_append_drop]
          have hz : 7 - (c :: cs).length = 0 := by omega
          rw [hz]
          simp
        rw [hdrop]
        have hulen : ((c :: cs).drop 7).length = (c :: cs).length - 7 := by
          simp
        cases hu : (c :: cs).drop 7 with
        | nil =>
          right
          have hd1 : dropNl ([] ++ '\n' :: fence3) = fence3 := by simp [dropNl]
          have hd2 : dropNl ([] : Chars) = [] := by simp [dropNl]
          rw [hd1, hd2]
          have h1 : stripJsonFences ([] : Chars) = [] := by simp only [stripJsonFences]
          rw [h1, List.nil_append]
          exact stripJsonFences_short _ (by decide)
        | cons d u2 =>
          by_cases hd : d = '\n'
          · subst hd
            have hd1 : dropNl (('\n' :: u2) ++ '\n' :: fence3) = u2 ++ '\n' :: fence3 := by
              rw [List.cons_append]
              simp [dropNl]
            have hd2 : dropNl ('\n' :: u2) = u2 := by simp [dropNl]
            rw [hd1, hd2]
            refine ih u2 ?_
            rw [hu] at hulen
            simp only [List.length_cons] at hulen ht ⊢
            omega
          · have hd1 : dropNl ((d :: u2) ++ '\n' :: fence3) = (d :: u2) ++ '\n' :: fence3 := by
              rw [List.cons_append]
              simp [dropNl, hd]
            have hd2 : dropNl (d :: u2) = d :: u2 := by simp [dropNl, hd]
            rw [hd1, hd2]
            refine ih (d :: u2) ?_
            rw [hu] at hulen
            simp only [List.length_cons] at hulen ht ⊢
            omega
      · by_cases hb : fenceJson.isPrefixOf ((c :: cs) ++ '\n' :: fence3) = true
        · exfalso
          have hlen : (c :: cs).length < 7 := by
            by_contra hge
            push_neg at hge
            exact hp (isPrefixOf_of_append_of_le _ _ _ hb (by rw [fenceJson_length]; omega))
          have hmem : '\n' ∈ fenceJson :=
            mem_of_isPrefixOf_append fenceJson (c :: cs) '\n' fence3
              (by rw [fenceJson_length]; omega) hb
          exact absurd hmem (by decide)
        · have hb2 : ¬fenceJson.isPrefixOf (c :: (cs ++ '\n' :: fence3)) = true := by
            rw [← List.cons_append]
            exact hb
          rw [List.cons_append]
          simp only [stripJsonFences]
          rw [if_neg hb2, if_neg hp]
          rcases ih cs (by simp only [List.length_cons] at ht; omega) with h | h
          · left
            rw [h, List.cons_append]
          · right
            rw [h, List.cons_append]

/-- Wrapper for the suffix pass-through of the first replacement. -/
theorem stripJsonFences_suffix (t : Chars) :
    stripJsonFences (t ++ '\n' :: fence3) = stripJsonFences t ++ '\n' :: fence3 ∨
    stripJsonFences (t ++ '\n' :: fence3) = stripJsonFences t ++ fence3 :=
  stripJsonFences_suffix_aux t.length t (Nat.le_refl _)

/-- Computation step: four backticks strip to one. -/
theorem stripFences_four : stripFences (btick :: fence3) = [ btick ] := by
  conv_lhs => rw [show (btick :: fence3) = btick :: (btick :: (btick :: [ btick ])) from rfl]
  simp only [stripFences]
  rw [if_pos (by decide)]
  show stripFences (dropNl [ btick ]) = [ btick ]
  show stripFences [ btick ] = [ btick ]
  exact stripFences_short _ (by decide)

/-- Computation step: five backticks strip to two. -/
theorem stripFences_five : stripFences (btick :: btick :: fence3) = [ btick, btick ] := by
  conv_lhs => rw [show (btick :: btick :: fence3) = btick :: (btick :: (btick :: (btick :: [ btick ])))
    from rfl]
  simp only [stripFences]
  rw [if_pos (by decide)]
  show stripFences (dropNl [ btick, btick ]) = [ btick, btick ]
  show stripFences [ btick, btick ] = [ btick, btick ]
  exact stripFences_short _ (by decide)

/-- A bare fence appended at the very end is erased entirely by the second replacement:
the trailing backtick run grows by exactly one full token, which the left-to-right scan
consumes, leaving the remainder of the run as before. -/
theorem stripFences_append_fence3_aux :
    ∀ (k : Nat) (v : Chars), v.length ≤ k →
      stripFences (v ++ fence3) = stripFences v := by
  intro k
  induction k with
  | zero =>
    intro v hv
    have hnil : v = [] := List.length_eq_zero.mp (Nat.le_zero.mp hv)
    subst hnil
    rw [List.nil_append, stripFences_fence3]
    simp only [stripFences]
  | succ k ih =>
    intro v hv
    cases v with
    | nil =>
      rw [List.nil_append, stripFences_fence3]
      simp only [stripFences]
    | cons c cs =>
      by_cases hp : fence3.isPrefixOf (c :: cs) = true
      · have hp2 : fence3.isPrefixOf (c :: (cs ++ fence3)) = true := by
          rw [← List.cons_append]
          exact isPrefixOf_append_of_isPrefixOf _ _ _ hp
        have h3 : 3 ≤ (c :: cs).length := by
          have hle := (List.isPrefixOf_iff_prefix.mp hp).length_le
          rw [fence3_length] at hle
          exact hle
        rw [List.cons_append]
        simp only [stripFences]
        rw [if_pos hp2, if_pos hp]
        have hdrop : (c :: (cs ++ fence3)).drop 3 = (c :: cs).drop 3 ++ fence3 := by
          rw [← List.cons_append, List.drop_append_eq_append_drop]
          have hz : 3 - (c :: cs).length = 0 := by omega
          rw [hz]
          simp
        rw [hdrop]
        have hulen : ((c :: cs).drop 3).length = (c :: cs).length - 3 := by simp
        cases hu : (c :: cs).drop 3 with
        | nil =>
          have hd1 : dropNl ([] ++ fence3) = fence3 := by
            rw [List.nil_append]
            simp [dropNl, fence3, str]
          have hd2 : dropNl ([] : Chars) = [] := by simp [dropNl]
          rw [hd1, hd2, stripFences_fence3]
          simp only [stripFences]
        | cons d u2 =>
          by_cases hd : d = '\n'
          · subst hd
            have hd1 : dropNl (('\n' :: u2) ++ fence3) = u2 ++ fence3 := by
              rw [List.cons_append]
              simp [dropNl]
            have hd2 : dropNl ('\n' :: u2) = u2 := by simp [dropNl]
            rw [hd1, hd2]
            refine ih u2 ?_
            rw [hu] at hulen
            simp only [List.length_cons] at hulen hv ⊢
            omega
          · have hd1 : dropNl ((d :: u2) ++ fence3) = (d :: u2) ++ fence3 := by
              rw [List.cons_append]
              simp [dropNl, hd]
            have hd2 : dropNl (d :: u2) = d :: u2 := by simp [dropNl, hd]
            rw [hd1, hd2]
            refine ih (d :: u2) ?_
            rw [hu] at hulen
            simp only [List.length_cons] at hulen hv ⊢
            omega
      · by_cases hb : fence3.isPrefixOf ((c :: cs) ++ fence3) = true
        · -- the match spans the boundary: the text tail is a short backtick run
          have hlen : (c :: cs).length < 3 := by
            by_contra hge
            push_neg at hge
            exact hp (isPrefixOf_of_append_of_le _ _ _ hb (by rw [fence3_length]; omega))
          obtain ⟨r, hr⟩ := List.isPrefixOf_iff_prefix.mp hb
          cases cs with
          | nil =>
            have hc : c = btick := by
              have h0 := congrArg List.head? hr
              rw [show fence3 = btick :: (btick :: [ btick ]) from rfl] at h0
              simp at h0
              exact h0.symm
            subst hc
            rw [List.singleton_append, stripFences_four]
            exact (stripFences_short _ (by decide)).symm
          | cons c2 cs2 =>
            cases cs2 with
            | nil =>
              rw [show fence3 = btick :: (btick :: [ btick ]) from rfl] at hr
              simp only [List.cons_append, List.nil_append, List.cons.injEq] at hr
              obtain ⟨h1, h2, _⟩ := hr
              subst h1
              subst h2
              rw [show ([ btick, btick ] ++ fence3) = btick :: btick :: fence3 from rfl]
              rw [stripFences_five]
              exact (stripFences_short _ (by decide)).symm
            | cons c3 cs3 =>
              exfalso
              simp only [List.length_cons] at hlen
              omega
        · have hb2 : ¬fence3.isPrefixOf (c :: (cs ++ fence3)) = true := by
            rw [← List.cons_append]
            exact hb
          rw [List.cons_append]
          simp only [stripFences]
          rw [if_neg hb2, if_neg hp]
          rw [ih cs (by simp only [List.length_cons] at hv; omega)]

/-- Wrapper: appending a bare fence at the end does not change the second replacement. -/
theorem stripFences_append_fence3 (v : Chars) :
    stripFences (v ++ fence3) = stripFences v :=
  stripFences_append_fence3_aux v.length v (Nat.le_refl _)

/-- The second replacement turns a trailing newline-fence suffix into at most a trailing
newline: the fence itself is always consumed, and a match of the text ending flush may
also consume the newline. -/
theorem stripFences_append_nl_fence3_aux :
    ∀ (k : Nat) (v : Chars), v.length ≤ k →
      stripFences (v ++ '\n' :: fence3) = stripFences v ++ [ '\n' ] ∨
      stripFences (v ++ '\n' :: fence3) = stripFences v := by
  intro k
  induction k with
  | zero =>
    intro v hv
    have hnil : v = [] := List.length_eq_zero.mp (Nat.le_zero.mp hv)
    subst hnil
    left
    rw [List.nil_append]
    have h1 : stripFences ([] : Chars) = [] := by simp only [stripFences]
    rw [h1, List.nil_append]
    have hstep : stripFences ('\n' :: fence3) = '\n' :: stripFences fence3 := by
      simp only [stripFences]
      rw [if_neg (by decide)]
    rw [hstep, stripFences_fence3]
  | succ k ih =>
    intro v hv
    cases v with
    | nil =>
      left
      rw [List.nil_append]
      have h1 : stripFences ([] : Chars) = [] := by simp only [stripFences]
      rw [h1, List.nil_append]
      have hstep : stripFences ('\n' :: fence3) = '\n' :: stripFences fence3 := by
        simp only [stripFences]
        rw [if_neg (by decide)]
      rw [hstep, stripFences_fence3]
    | cons c cs =>
      by_cases hp : fence3.isPrefixOf (c :: cs) = true
      · have hp2 : fence3.isPrefixOf (c :: (cs ++ '\n' :: fence3)) = true := by
          rw [← List.cons_append]
          exact isPrefixOf_append_of_isPrefixOf _ _ _ hp
        have h3 : 3 ≤ (c :: cs).length := by
          have hle := (List.isPrefixOf_iff_prefix.mp hp).length_le
          rw [fence3_length] at hle
          exact hle
        rw [List.cons_append]
        simp only [stripFences]
        rw [if_pos hp2, if_pos hp]
        have hdrop : (c :: (cs ++ '\n' :: fence3)).drop 3 =
            (c :: cs).drop 3 ++ '\n' :: fence3 := by
          rw [← List.cons_append, List.drop_append_eq_append_drop]
          have hz : 3 - (c :: cs).length = 0 := by omega
          rw [hz]
          simp
        rw [hdrop]
        have hulen : ((c :: cs).drop 3).length = (c :: cs).length - 3 := by simp
        cases hu : (c :: cs).drop 3 with
        | nil =>
          right
          have hd1 : dropNl ([] ++ '\n' :: fence3) = fence3 := by
            rw [List.nil_append]
            simp [dropNl]
          have hd2 : dropNl ([] : Chars) = [] := by simp [dropNl]
          rw [hd1, hd2, stripFences_fence3]
          simp only [stripFences]
        | cons d u2 =>
          by_cases hd : d = '\n'
          · subst hd
            have hd1 : dropNl (('\n' :: u2) ++ '\n' :: fence3) = u2 ++ '\n' :: fence3 := by
              rw [List.cons_append]
              simp [dropNl]
            have hd2 : dropNl ('\n' :: u2) = u2 := by simp [dropNl]
            rw [hd1, hd2]
            refine ih u2 ?_
            rw [hu] at hulen
            simp only [List.length_cons] at hulen hv ⊢
            omega
          · have hd1 : dropNl ((d :: u2) ++ '\n' :: fence3) = (d :: u2) ++ '\n' :: fence3 := by
              rw [List.cons_append]
              simp [dropNl, hd]
            have hd2 : dropNl (d :: u2) = d :: u2 := by simp [dropNl, hd]
            rw [hd1, hd2]
            refine ih (d :: u2) ?_
            rw [hu] at hulen
            simp only [List.length_cons] at hulen hv ⊢
            omega
      · by_cases hb : fence3.isPrefixOf ((c :: cs) ++ '\n' :: fence3) = true
        · exfalso
          have hlen : (c :: cs).length < 3 := by
            by_contra hge
            push_neg at hge
            exact hp (isPrefixOf_of_append_of_le _ _ _ hb (by rw [fence3_length]; omega))
          have hmem : '\n' ∈ fence3 :=
            mem_of_isPrefixOf_append fence3 (c :: cs) '\n' fence3
              (by rw [fence3_length]; omega) hb
          exact absurd hmem (by decide)
        · have hb2 : ¬fence3.isPrefixOf (c :: (cs ++ '\n' :: fence3)) = true := by
            rw [← List.cons_append]
            exact hb
          rw [List.cons_append]
          simp only [stripFences]
          rw [if_neg hb2, if_neg hp]
          rcases ih cs (by simp only [List.length_cons] at hv; omega) with h | h
          · left
            rw [h, List.cons_append]
          · right
            rw [h]

/-- Wrapper for the newline-fence suffix of the second replacement. -/
theorem stripFences_append_nl_fence3 (v : Chars) :
    stripFences (v ++ '\n' :: fence3) = stripFences v ++ [ '\n' ] ∨
    stripFences (v ++ '\n' :: fence3) = stripFences v :=
  stripFences_append_nl_fence3_aux v.length v (Nat.le_refl _)

/-- Trimming ignores a trailing newline. -/
theorem jsTrim_append_nl (v : Chars) : jsTrim (v ++ [ '\n' ]) = jsTrim v := by
  unfold jsTrim trimRight
  rw [List.reverse_append]
  rw [show ([ '\n' ] : Chars).reverse = [ '\n' ] from rfl]
  rw [show ([ '\n' ] : Chars) ++ v.reverse = '\n' :: v.reverse from rfl]
  rw [List.dropWhile_cons]
  rw [if_pos (by decide)]

/-- C6: the plan sanitizer is fence-invariant: wrapping a planning response in leading
and trailing code-fence markers yields the same sanitized text, hence the same parsed
plan under any parse function. -/
theorem c6_sanitizer_fence_invariant (t : Chars)
    (parsePlan : Chars → Option SearchPlan) :
    parsePlan (sanitizePlanText (wrapFence t)) = parsePlan (sanitizePlanText t) := by
  have key : sanitizePlanText (wrapFence t) = sanitizePlanText t := by
    unfold sanitizePlanText wrapFence
    rw [stripJsonFences_fence_head]
    rcases stripJsonFences_suffix t with h | h
    · rw [h]
      rcases stripFences_append_nl_fence3 (stripJsonFences t) with h2 | h2
      · rw [h2, jsTrim_append_nl]
      · rw [h2]
    · rw [h, stripFences_append_fence3]
  rw [key]
